import Mathlib

/-!
Verification of the session-scoped retrieval engine of the
AI-Contract-Review repository.

Python strings are modelled as lists of characters (`List Char`); Python
floats (similarity scores, embedding coordinates) are modelled as rationals
(`ℚ`); Python dicts keyed by integer position are modelled as insertion-ordered
association lists.  Each definition in this file embeds one function of the
source tree; the file it comes from is named in its doc comment.
-/

/-- Python whitespace characters recognised by `str.split()` (ASCII range,
as used by the repository's plain-text contents). -/
def pyIsSpace (c : Char) : Bool :=
  c = ' ' || c = '\t' || c = '\n' || c = '\r' || c = '\x0b' || c = '\x0c'

/-- Accumulator-based splitter behind `pyWords`; `acc` holds the current
in-progress word reversed. -/
def pyWordsAux : List Char → List Char → List (List Char)
  | [], acc => if acc.isEmpty then [] else [acc.reverse]
  | c :: cs, acc =>
    if pyIsSpace c then
      if acc.isEmpty then pyWordsAux cs [] else acc.reverse :: pyWordsAux cs []
    else pyWordsAux cs (c :: acc)

/-- Model of Python `s.split()` (no argument): maximal runs of
non-whitespace characters, with no empty words. -/
def pyWords (s : List Char) : List (List Char) :=
  pyWordsAux s []

/-- One pass of the loop of `DocxParser._merge_orphan_chunks`
(`src/services/registry/semantic_parser.py`, lines 84-94): walk the chunks,
prepending any carried-over fragment, and carry a chunk forward when the
merged text still has fewer than `minWords` words.  Returns the emitted
chunks together with the final carry. -/
def mergeLoop (minWords : Nat) : List (List Char) → List Char → List (List Char) × List Char
  | [], carry => ([], carry)
  | chunk :: rest, carry =>
    let merged := if carry = [] then chunk else carry ++ ' ' :: chunk
    if (pyWords merged).length < minWords then
      mergeLoop minWords rest merged
    else
      let p := mergeLoop minWords rest []
      (merged :: p.1, p.2)

/-- Final carry handling of `_merge_orphan_chunks` (lines 97-101):
`merged[-1] = merged[-1] + " " + carry` when `merged` is non-empty, else
`merged.append(carry)`. -/
def appendToLast : List (List Char) → List Char → List (List Char)
  | [], carry => [carry]
  | [x], carry => [x ++ ' ' :: carry]
  | x :: y :: rest, carry => x :: appendToLast (y :: rest) carry

/-- `DocxParser._merge_orphan_chunks(chunks, min_words)`
(`src/services/registry/semantic_parser.py`, lines 74-103). -/
def mergeOrphanChunks (chunks : List (List Char)) (minWords : Nat := 5) : List (List Char) :=
  if chunks = [] then chunks
  else
    let p := mergeLoop minWords chunks []
    if p.2 = [] then p.1 else appendToLast p.1 p.2

/-- The `while start < len(text)` loop of `TextChunker.chunk_text`
(`src/services/ingestion/chunker.py`, lines 26-32); `step` is
`chunk_size - overlap`, positive by the guard in `chunkText`. -/
def chunkLoop (text : List Char) (csize step : Nat) (hstep : 0 < step) (start : Nat) :
    List (List Char) :=
  if _h : start < text.length then
    ((text.drop start).take csize) :: chunkLoop text csize step hstep (start + step)
  else []
termination_by text.length - start
decreasing_by simp_wf; omega

/-- `TextChunker.chunk_text(text, chunk_size, overlap)`
(`src/services/ingestion/chunker.py`, lines 11-36): raises `ValueError` when
`chunk_size <= overlap`, otherwise emits `text[start:start+chunk_size]`
slices with `start` advancing by `chunk_size - overlap`. -/
def chunkText (text : List Char) (chunk_size : Nat := 800) (overlap : Nat := 100) :
    Except String (List (List Char)) :=
  if h : chunk_size ≤ overlap then
    .error "chunk_size must be greater than overlap."
  else
    .ok (chunkLoop text chunk_size (chunk_size - overlap) (by omega) 0)

/-- A stored chunk as kept in a session's chunk store
(`src/schemas/registry.py`, class `Chunk`).  Identity and audit fields that
no verified operation reads (`chunk_id`, `document_id`, embedding audit
fields) are carried as opaque strings or omitted; `metadata` is opaque. -/
structure StoredChunk where
  chunk_id : String
  document_id : String
  chunk_index : Nat
  content : String
  metadata : String
  created_at : String
deriving DecidableEq, Repr, Inhabited

/-- One fused retrieval hit: the dict built at
`src/services/retrieval/retrieval.py`, lines 100-107. -/
structure FusedHit where
  index : Int
  content : String
  similarity_score : ℚ
  metadata : String
  created_at : String
  matched_query : String
deriving DecidableEq, Repr, Inhabited

/-- Lookup in an insertion-ordered association list (Python dict
`all_hits[idx]` / `idx in all_hits`). -/
def dictGet (l : List (Int × FusedHit)) (k : Int) : Option FusedHit :=
  match l with
  | [] => none
  | (k1, v1) :: rest => if k1 = k then some v1 else dictGet rest k

/-- Update in an insertion-ordered association list (Python dict
`all_hits[idx] = ...`): replaces in place, or appends a new key. -/
def dictSet (l : List (Int × FusedHit)) (k : Int) (v : FusedHit) : List (Int × FusedHit) :=
  match l with
  | [] => [(k, v)]
  | (k1, v1) :: rest => if k1 = k then (k, v) :: rest else (k1, v1) :: dictSet rest k v

/-- The threshold filter of `retrieve_data`
(`src/services/retrieval/retrieval.py`, line 92):
`threshold is not None and score < threshold` discards the hit. -/
def passesThreshold (th : Option ℚ) (s : ℚ) : Bool :=
  match th with
  | none => true
  | some t => !(s < t)

/-- The dict stored for a fused hit
(`src/services/retrieval/retrieval.py`, lines 100-107). -/
def mkFusedHit (p : Int) (c : StoredChunk) (s : ℚ) (q : String) : FusedHit :=
  { index := p, content := c.content, similarity_score := s,
    metadata := c.metadata, created_at := c.created_at, matched_query := q }

/-- Processing of a single `(idx, score)` search result
(`src/services/retrieval/retrieval.py`, lines 91-107): skip when below the
threshold; otherwise when the position is absent or beaten, resolve the
chunk (skipping the hit when unresolvable) and store the fused entry. -/
def fuseStep (g : Int → Option StoredChunk) (th : Option ℚ) (newQuery : String)
    (acc : List (Int × FusedHit)) (pr : Int × ℚ) : List (Int × FusedHit) :=
  if passesThreshold th pr.2 then
    if (match dictGet acc pr.1 with
        | none => true
        | some e => decide (e.similarity_score < pr.2)) then
      match g pr.1 with
      | none => acc
      | some c => dictSet acc pr.1 (mkFusedHit pr.1 c pr.2 newQuery)
    else acc
  else acc

/-- The inner `for idx, score in zip(indices, scores)` loop of
`retrieve_data` for one reformulated query. -/
def fuseHits (g : Int → Option StoredChunk) (th : Option ℚ) (newQuery : String)
    (hits : List (Int × ℚ)) (acc : List (Int × FusedHit)) : List (Int × FusedHit) :=
  hits.foldl (fuseStep g th newQuery) acc

/-- Fusion across all reformulated queries, starting from the empty
`all_hits` dict (`src/services/retrieval/retrieval.py`, lines 65-107); each
element of `results` is a reformulation's `new_query` paired with its
zipped `(indices, scores)` search results. -/
def fuseAll (g : Int → Option StoredChunk) (th : Option ℚ)
    (results : List (String × List (Int × ℚ))) : List (Int × FusedHit) :=
  results.foldl (fun acc qr => fuseHits g th qr.1 qr.2 acc) []

/-- Maximum combining on optional scores (`none` = no score seen yet). -/
def someMax (m : Option ℚ) (s : ℚ) : Option ℚ :=
  match m with
  | none => some s
  | some t => some (max t s)

/-- Modelled from the spec claim: the highest score seen for position `p`
across all reformulations, among hits surviving the threshold filter. -/
def maxScoreAt (th : Option ℚ) (results : List (String × List (Int × ℚ))) (p : Int) :
    Option ℚ :=
  results.foldl
    (fun m qr =>
      qr.2.foldl (fun m1 pr => if pr.1 = p ∧ passesThreshold th pr.2 then someMax m1 pr.2 else m1)
        m)
    none

/-- Insertion into a list sorted by descending key: the element passes
entries with a strictly greater key and stops before the first entry with
an equal or smaller key, so an earlier element stays ahead of equal-keyed
later ones. -/
def insertByDesc (key : α → ℚ) (x : α) : List α → List α
  | [] => [x]
  | y :: ys => if key x < key y then y :: insertByDesc key x ys else x :: y :: ys

/-- Model of Python `sorted(l, key=key, reverse=True)` (stable insertion
sort by descending key: elements with equal keys keep their original
relative order). -/
def sortByDesc (key : α → ℚ) (l : List α) : List α :=
  l.foldr (insertByDesc key) []

/-- Inner product of two vectors, the similarity score of
`faiss.IndexFlatIP` (`src/services/vector_store/faiss_db.py`).  Vectors are
stored after `faiss.normalize_L2`, a real-valued operation; the model works
with the post-normalization coordinates directly, which leaves every
position-related statement unchanged. -/
def innerProduct (a b : List ℚ) : ℚ :=
  (List.zipWith (fun x y => x * y) a b).sum

/-- The `(index, score)` rows produced on the success path of
`FAISSVectorStore.search_index` (`src/services/vector_store/faiss_db.py`,
line 67), after the query has passed validation: the stored positions
ranked by descending inner product with the query, truncated to `k`, then
padded to exactly `k` rows with the library sentinel position `-1`
carrying an arbitrary pad score. -/
def searchRanked (stored : List (List ℚ)) (q : List ℚ) (k : Nat) (pad : ℚ) :
    List (Int × ℚ) :=
  let scored := stored.enum.map fun p => ((p.1 : Int), innerProduct q p.2)
  (sortByDesc (fun pr => pr.2) scored).take k ++
    List.replicate (k - stored.length) ((-1 : Int), pad)

/-- `FAISSVectorStore.search_index` (`src/services/vector_store/faiss_db.py`,
lines 56-76): an empty query embedding raises
`ValueError("Query Embedding cannot be empty.")` before the try block;
inside it `_validate_vectors` (lines 26-33) raises on a dimension mismatch
against the store's fixed `dimension`, which the `except` re-raises as
`ValueError("Unable to search the query in the database.")`; otherwise the
`indices` and `scores` of the ranked rows are returned as two parallel
lists (the dict built at lines 70-74). -/
def searchIndexModel (dim : Nat) (stored : List (List ℚ)) (q : List ℚ) (k : Nat)
    (pad : ℚ) : Except String (List Int × List ℚ) :=
  if q = [] then .error "Query Embedding cannot be empty."
  else if q.length ≠ dim then .error "Unable to search the query in the database."
  else .ok ((searchRanked stored q k pad).map Prod.fst,
    (searchRanked stored q k pad).map Prod.snd)

/-- Chunk lookup against a session's chunk store
(`get_chunks_from_session`, `src/services/vector_store/manager.py`, lines
116-119): the store maps positions `0..N-1` to chunks in insertion order,
and any other key (such as the sentinel `-1`) misses. -/
def sessionChunkGetter (chunks : List StoredChunk) (i : Int) : Option StoredChunk :=
  if h : 0 ≤ i ∧ i.toNat < chunks.length then some (chunks.get ⟨i.toNat, h.2⟩) else none

/-- The extension loop of the dynamic-k policy
(`src/services/retrieval/retrieval.py`, lines 132-147): keep a remaining
hit while its score is at least 98% of the last kept score (updating the
reference), stop at the first violation, and break once the total count
`count` reaches `2 * topk` (checked after each append). -/
def dynamicKExtend (topk : Nat) : ℚ → Nat → List FusedHit → List FusedHit
  | _, _, [] => []
  | lastScore, count, c :: rest =>
    if lastScore * (98 / 100) ≤ c.similarity_score then
      if 2 * topk ≤ count + 1 then [c]
      else c :: dynamicKExtend topk c.similarity_score (count + 1) rest
    else []

/-- The result-count policy of `retrieve_data`
(`src/services/retrieval/retrieval.py`, lines 115-149): with `dynamic_k`
and a non-empty ranked list, keep the first `topk` as base and extend with
`dynamicKExtend`; otherwise return the first `topk`. -/
def applyTopK (ranked : List FusedHit) (topk : Nat) (dynamicK : Bool) : List FusedHit :=
  if dynamicK ∧ !ranked.isEmpty then
    let base := ranked.take topk
    match base.getLast?, ranked.drop topk with
    | some b, _ :: _ =>
      base ++ dynamicKExtend topk b.similarity_score base.length (ranked.drop topk)
    | _, _ => base
  else ranked.take topk

/-- Modelled from the spec claim: walk the hits after the base, keeping a
hit while the running count is below the `cap` and its score is at least
98% of the previously kept hit's score (sliding reference), stopping at the
first violation. -/
def slidingKeep (cap : Nat) : ℚ → Nat → List FusedHit → List FusedHit
  | _, _, [] => []
  | ref, count, c :: rest =>
    if count < cap ∧ ref * (98 / 100) ≤ c.similarity_score then
      c :: slidingKeep cap c.similarity_score (count + 1) rest
    else []

/-- Modelled from the spec claim: the dynamic result-count policy — the
first `topk` hits, extended by the sliding 98% walk hard-capped at
`2 * topk` total hits. -/
def dynamicKPolicy (ranked : List FusedHit) (topk : Nat) : List FusedHit :=
  let base := ranked.take topk
  base ++
    (match base.getLast? with
     | none => []
     | some b => slidingKeep (2 * topk) b.similarity_score base.length (ranked.drop topk))

/-- The two errors `retrieve_data` can raise
(`src/services/retrieval/retrieval.py`, lines 58-59 and 166-168):
`ValueError("Query cannot be empty.")` before the try block, and
`ValueError("Unable to retrieve the data.")` re-raised by the
catch-all `except` around everything else. -/
inductive RetrievalError where
  | emptyQuery
  | unableToRetrieve
deriving DecidableEq, Repr

/-- The collaborators `retrieve_data` calls: the query rewriter
(`rewrite_query`, an LLM call), the embedding provider
(`generate_embeddings`), the session vector store (`search_index`) and the
session chunk store lookup.  Each fallible remote call returns `Except`. -/
structure RetrievalDeps where
  rewrite : String → Except String (List String)
  embed : String → Except String (List ℚ)
  search : List ℚ → Nat → Except String (List Int × List ℚ)
  chunkGetter : Int → Option StoredChunk

/-- The result dict of `retrieve_data` (lines 153-164); the wall-clock
`search_time` entry is omitted. -/
structure RetrievalOutput where
  query : String
  rewritten_queries : List String
  chunks : List FusedHit
  num_results : Nat
deriving DecidableEq, Repr

/-- The `for query_rewriten in queries` loop of `retrieve_data` (lines
71-107): build `new_query`, embed it, search the vector store (an
exception from either call aborts the whole retrieval via the outer
`except`), and fuse the zipped results.
The state threads the running `all_hits` dict and the current value of
the loop variable `new_query`; the loop is only entered with a nonempty
query list, so the initial second component is never returned. -/
def runQueries (deps : RetrievalDeps) (th : Option ℚ) (origQuery : String) (initialK : Nat) :
    List String → List (Int × FusedHit) × String →
      Except Unit (List (Int × FusedHit) × String)
  | [], st => .ok st
  | q :: rest, st =>
    let newQuery := origQuery ++ " | " ++ q
    match deps.embed newQuery with
    | .error _ => .error ()
    | .ok emb =>
      match deps.search emb initialK with
      | .error _ => .error ()
      | .ok sr =>
        runQueries deps th origQuery initialK rest
          (fuseHits deps.chunkGetter th newQuery (sr.1.zip sr.2) st.1, newQuery)

/-- `RetrievalService.retrieve_data`
(`src/services/retrieval/retrieval.py`, lines 55-168).  An empty or
whitespace-only query raises `emptyQuery` before the try block.  Inside the
try block any failure — the rewrite call raising, the rewrite returning an
empty list (the zero-iteration loop leaves `new_query` unbound and the
result dict raises `NameError`), or an embedding call raising — is caught
by the catch-all `except` and re-raised as `unableToRetrieve`.  Otherwise
the fused hits are ranked by descending score and cut by `applyTopK`. -/
def retrieveData (deps : RetrievalDeps) (query : String) (topk : Nat := 5)
    (dynamicK : Bool := false) (th : Option ℚ := some 0) :
    Except RetrievalError RetrievalOutput :=
  if query.data.all pyIsSpace then .error .emptyQuery
  else
    match deps.rewrite query with
    | .error _ => .error .unableToRetrieve
    | .ok queries =>
      match queries with
      | [] => .error .unableToRetrieve
      | q0 :: rest =>
        let initialK := if dynamicK then max 20 (topk * 3) else topk
        match runQueries deps th query initialK (q0 :: rest) ([], query) with
        | .error _ => .error .unableToRetrieve
        | .ok (allHits, lastQuery) =>
          let ranked := sortByDesc (fun h => h.similarity_score) (allHits.map Prod.snd)
          let finalChunks := applyTopK ranked topk dynamicK
          .ok { query := lastQuery, rewritten_queries := queries,
                chunks := finalChunks, num_results := finalChunks.length }

/-- The per-session stores owned by one `SessionData`
(`src/services/session_manager.py`, lines 15-33): a FAISS vector index
with its fixed configured dimension and the position-keyed chunk store,
both append-only. -/
structure SessionStores where
  dimension : Nat
  vectors : List (List ℚ)
  chunks : List StoredChunk
deriving Repr

/-- A fresh session's stores: an empty `FAISSVectorStore` of the
registry's configured embedding dimension and an empty chunk store
(`SessionManager.get_or_create_session`, lines 73-78). -/
def emptySessionStores (dim : Nat) : SessionStores :=
  { dimension := dim, vectors := [], chunks := [] }

/-- The retrieval collaborators wired to one session's stores, as in the
`session_data` branch of `retrieve_data` (lines 78-81). -/
def sessionDeps (rewrite : String → Except String (List String))
    (embed : String → Except String (List ℚ)) (s : SessionStores) (pad : ℚ) :
    RetrievalDeps :=
  { rewrite := rewrite, embed := embed,
    search := fun q k => searchIndexModel s.dimension s.vectors q k pad,
    chunkGetter := sessionChunkGetter s.chunks }

/-- The session registry map `SessionManager._sessions`
(`src/services/session_manager.py`, line 55). -/
def Registry : Type :=
  String → Option SessionStores

/-- `SessionManager.get_or_create_session` (lines 66-84): an unknown id is
bound to freshly constructed empty stores; an existing id keeps its stores
(timestamp refreshing is not modelled). -/
def getOrCreateSession (r : Registry) (id1 : String) (dim : Nat) : Registry :=
  fun k => if k = id1 then some ((r id1).getD (emptySessionStores dim)) else r k

/-- `FAISSVectorStore.index_embedding` applied to session `id1`'s store
(`src/services/vector_store/faiss_db.py`, lines 35-54): the success path
appends the (normalized) vector at the next position of that session's
index, touching no other session (a validation failure appends nothing and
so also touches no other session). -/
def insertIntoSession (r : Registry) (id1 : String) (v : List ℚ) : Registry :=
  fun k =>
    if k = id1 then (r id1).map fun s => { s with vectors := s.vectors ++ [v] }
    else r k

/-- `search_index` against session `id1`'s store (including its validation
of the query against that store's dimension): `none` when the session does
not exist. -/
def searchSession (r : Registry) (id1 : String) (q : List ℚ) (k : Nat) (pad : ℚ) :
    Option (Except String (List Int × List ℚ)) :=
  (r id1).map fun s => searchIndexModel s.dimension s.vectors q k pad

/-- `SessionManager.delete_session` (lines 102-110): removes the session
and reports `True` when present, otherwise leaves the registry unchanged
and reports `False` — no exception either way. -/
def deleteSession (r : Registry) (id1 : String) : Bool × Registry :=
  match r id1 with
  | some _ => (true, fun k => if k = id1 then none else r k)
  | none => (false, r)

/-- `index_chunks_in_session(session_data, chunks)` as defined
(`src/services/vector_store/manager.py`, lines 98-107): appends each chunk
at the next `chunk_counter` position of the session's chunk store.  The
function takes exactly these two arguments. -/
def indexChunksInSession (s : SessionStores) (chunks : List StoredChunk) : SessionStores :=
  { s with chunks := s.chunks ++ chunks }

/-- Outcome of one `DocxParser.parse` call: the session stores afterwards
and the `success` flag of the returned `ParseResult`. -/
structure ParseOutcome where
  stores : SessionStores
  success : Bool
deriving Repr

/-- `DocxParser.parse` with `session_data`
(`src/services/registry/semantic_parser.py`, lines 244-339), after the
semantic chunk texts have been computed; `clean` stands for
`self._clean_text`.  The loop over the chunk texts (lines 266-286) skips a
text whose cleaned form is empty and otherwise indexes its embedding into
the session's vector store — growing the index by one — and appends a
`Chunk` to the local `chunks` list.  Line 319 then calls
`index_chunks_in_session(session_data, chunks, metadata)` with three
positional arguments, but the function is defined with two
(`manager.py`, line 98), so the call raises `TypeError` before any chunk
is stored; the catch-all `except` (lines 331-339) turns this into a
`ParseResult` with `success=False`, leaving the chunk store untouched
while the vectors already added remain. -/
def parseSession (clean : String → String) (mkChunk : Nat → String → StoredChunk)
    (embed : String → List ℚ) (s : SessionStores) (semanticChunks : List String) :
    ParseOutcome :=
  let kept := (semanticChunks.map clean).filter (fun t => !(t == ""))
  let s1 := { s with vectors := s.vectors ++ kept.map embed }
  let _chunks := kept.enum.map fun p => mkChunk p.1 p.2
  { stores := s1, success := false }

deriving instance DecidableEq for Except

/-- An example chunk stored at position 0 of a session. -/
def exampleChunkA : StoredChunk :=
  { chunk_id := "id-a", document_id := "doc-1", chunk_index := 0,
    content := "Termination clause text", metadata := "", created_at := "t0" }

/-- A session of embedding dimension 2 holding one indexed vector aligned
with one stored chunk. -/
def exampleSession : SessionStores :=
  { dimension := 2, vectors := [[1, 0]], chunks := [exampleChunkA] }

/-- Retrieval against `exampleSession` where only the reformulation call
fails; embedding, search and chunk resolution all work. -/
def exampleDepsRewriteFails : RetrievalDeps :=
  sessionDeps (fun _ => .error "llm failure") (fun _ => .ok [1, 0]) exampleSession (-1)

/-- The same collaborators as `exampleDepsRewriteFails` except that the
reformulation call succeeds. -/
def exampleDepsRewriteOk : RetrievalDeps :=
  sessionDeps (fun _ => .ok ["alternative phrasing"]) (fun _ => .ok [1, 0]) exampleSession (-1)

/-- C4 (counterexample): with working embedding, search and chunk stores, a
failing reformulation call alone makes `retrieve_data` raise
`ValueError("Unable to retrieve the data.")`; the identical retrieval with
a succeeding reformulation returns one hit.  There is no fallback to the
original query, so the retrieval fails solely because reformulation
failed. -/
theorem rewrite_failure_counterexample :
    retrieveData exampleDepsRewriteFails "what is the term?" 5 false (some 0) =
      .error .unableToRetrieve ∧
    (retrieveData exampleDepsRewriteOk "what is the term?" 5 false (some 0)).map
      (fun o => o.num_results) = .ok 1 := by
  have hq : "what is the term?".data.all pyIsSpace = false := by decide
  constructor
  · simp [retrieveData, exampleDepsRewriteFails, sessionDeps, hq]
  · have hne : (([1, 0] : List ℚ) = []) = False := by
      simp
    norm_num [retrieveData, runQueries, exampleDepsRewriteOk, sessionDeps, exampleSession,
      searchIndexModel, searchRanked, innerProduct, sortByDesc, insertByDesc, List.replicate,
      fuseHits, fuseStep, mkFusedHit, passesThreshold, sessionChunkGetter, dictGet, dictSet,
      exampleChunkA, applyTopK, hq, hne, Except.map]

/-- C4 (amended): whenever the reformulation call raises, `retrieve_data`
as a whole raises `ValueError("Unable to retrieve the data.")` — the
exception propagates into the catch-all `except` and there is no fallback
to the original query. -/
theorem rewrite_failure_aborts_retrieval (deps : RetrievalDeps) (query : String)
    (topk : Nat) (dynamicK : Bool) (th : Option ℚ) (e : String)
    (hq : query.data.all pyIsSpace = false) (hr : deps.rewrite query = .error e) :
    retrieveData deps query topk dynamicK th = .error .unableToRetrieve := by
  simp [retrieveData, hq, hr]

/-- C4 (witness): the amended theorem applied to a concrete failing
rewriter over a populated session. -/
theorem rewrite_failure_aborts_retrieval_witness :
    retrieveData exampleDepsRewriteFails "what is the term?" 5 false (some 0) =
      .error .unableToRetrieve :=
  rewrite_failure_aborts_retrieval exampleDepsRewriteFails "what is the term?" 5 false
    (some 0) "llm failure" (by decide) rfl

/-- C5: session isolation — inserting a vector into session `A`'s index
(or creating session `A` afresh) leaves the search results of any other
session `B` unchanged for an identical query embedding, because the
registry gives every session its own independently constructed vector
store and chunk store. -/
theorem session_isolation (r : Registry) (A B : String) (v q : List ℚ) (k dim : Nat)
    (pad : ℚ) (hAB : A ≠ B) :
    searchSession (insertIntoSession r A v) B q k pad = searchSession r B q k pad ∧
    searchSession (getOrCreateSession r A dim) B q k pad = searchSession r B q k pad := by
  constructor <;>
    simp [searchSession, insertIntoSession, getOrCreateSession, Ne.symm hAB]

/-- C5 (witness): isolation applied to two concrete sessions. -/
theorem session_isolation_witness :
    searchSession (insertIntoSession (fun _ => some exampleSession) "sessA" [0, 1])
        "sessB" [1, 0] 5 (-1) =
      searchSession (fun _ => some exampleSession) "sessB" [1, 0] 5 (-1) :=
  (session_isolation (fun _ => some exampleSession) "sessA" "sessB" [0, 1] [1, 0] 5 2 (-1)
    (by decide)).1

/-- C8: `delete_session` is idempotent — deleting an existing session
removes it and reports `true`, a second delete of the same id reports
`false`, and deleting a nonexistent id reports `false` and leaves the
registry untouched; no case raises. -/
theorem delete_session_idempotent (r : Registry) (id1 : String) :
    ((r id1).isSome →
      (deleteSession r id1).1 = true ∧
      (deleteSession (deleteSession r id1).2 id1).1 = false ∧
      (deleteSession r id1).2 id1 = none) ∧
    (r id1 = none → deleteSession r id1 = (false, r)) := by
  cases h : r id1 <;> simp [deleteSession, h]

/-- C8 (witness): double deletion of a concrete session id. -/
theorem delete_session_idempotent_witness :
    (deleteSession (fun _ => some exampleSession) "sessA").1 = true ∧
    (deleteSession (deleteSession (fun _ => some exampleSession) "sessA").2 "sessA").1 =
      false :=
  ⟨((delete_session_idempotent (fun _ => some exampleSession) "sessA").1 rfl).1,
   ((delete_session_idempotent (fun _ => some exampleSession) "sessA").1 rfl).2.1⟩

/-- A hit carrying only a score, for the spec's dynamic-k scenario. -/
def exampleHit (i : Int) (s : ℚ) : FusedHit :=
  { index := i, content := "c", similarity_score := s, metadata := "", created_at := "t",
    matched_query := "q" }

/-- The spec's dynamic-k scenario: fused hits with scores
`[0.99, 0.98, 0.97, 0.96, 0.95, 0.94, 0.93, 0.80]` sorted descending. -/
def exampleRanked : List FusedHit :=
  [exampleHit 0 (99/100), exampleHit 1 (98/100), exampleHit 2 (97/100),
   exampleHit 3 (96/100), exampleHit 4 (95/100), exampleHit 5 (94/100),
   exampleHit 6 (93/100), exampleHit 7 (80/100)]

theorem slidingKeep_of_not_lt (cap : Nat) (ref : ℚ) (count : Nat) (l : List FusedHit)
    (h : ¬ count < cap) : slidingKeep cap ref count l = [] := by
  cases l <;> simp [slidingKeep, h]

theorem dynamicKExtend_eq_slidingKeep (topk : Nat) (l : List FusedHit) :
    ∀ ref count, count < 2 * topk →
      dynamicKExtend topk ref count l = slidingKeep (2 * topk) ref count l := by
  induction l with
  | nil => intro ref count _; rfl
  | cons c rest ih =>
    intro ref count hcount
    by_cases hs : ref * (98 / 100) ≤ c.similarity_score
    · by_cases hcap : 2 * topk ≤ count + 1
      · have : ¬ count + 1 < 2 * topk := by omega
        simp [dynamicKExtend, slidingKeep, hs, hcap, hcount,
          slidingKeep_of_not_lt (2 * topk) c.similarity_score (count + 1) rest this]
      · simp [dynamicKExtend, slidingKeep, hs, hcap, hcount, ih c.similarity_score (count + 1) (by omega)]
    · simp [dynamicKExtend, slidingKeep, hs, hcount]

theorem slidingKeep_length (cap : Nat) (l : List FusedHit) :
    ∀ ref count, (slidingKeep cap ref count l).length ≤ cap - count := by
  induction l with
  | nil => intro ref count; simp [slidingKeep]
  | cons c rest ih =>
    intro ref count
    by_cases h : count < cap ∧ ref * (98 / 100) ≤ c.similarity_score
    · have := ih c.similarity_score (count + 1)
      simp only [slidingKeep, if_pos h, List.length_cons]
      omega
    · simp [slidingKeep, h]

theorem dynamicKPolicy_length (ranked : List FusedHit) (topk : Nat) :
    (dynamicKPolicy ranked topk).length ≤ 2 * topk := by
  unfold dynamicKPolicy
  have hb : (ranked.take topk).length ≤ topk := List.length_take_le _ _
  cases hL : (ranked.take topk).getLast? with
  | none =>
    simp only [hL, List.append_nil]
    omega
  | some b =>
    have h2 := slidingKeep_length (2 * topk) (ranked.drop topk) b.similarity_score
      (ranked.take topk).length
    simp only [hL, List.length_append]
    omega

/-- C1: the result-count policy of `retrieve_data` — with `dynamic_k`
disabled the first `top_k` ranked hits are returned; with `dynamic_k`
enabled the result is the first `top_k` hits extended hit-by-hit while
each next score is at least 98% of the previously kept score (sliding
reference), stopping at the first violation, and the total never exceeds
`2 * top_k`.  On the spec's scenario (scores 0.99..0.93 then 0.80,
`top_k = 5`) static mode returns the first 5 and dynamic mode exactly 7
hits. -/
theorem dynamic_k_policy (ranked : List FusedHit) (topk : Nat) :
    applyTopK ranked topk false = ranked.take topk ∧
    applyTopK ranked topk true = dynamicKPolicy ranked topk ∧
    (applyTopK ranked topk true).length ≤ 2 * topk ∧
    applyTopK exampleRanked 5 false = exampleRanked.take 5 ∧
    (applyTopK exampleRanked 5 true).length = 7 := by
  have hstatic : applyTopK ranked topk false = ranked.take topk := by
    simp [applyTopK]
  have hdyn : applyTopK ranked topk true = dynamicKPolicy ranked topk := by
    by_cases hE : ranked.isEmpty
    · have : ranked = [] := by simpa [List.isEmpty_iff] using hE
      subst this
      simp [applyTopK, dynamicKPolicy]
    · rw [applyTopK]
      simp only [hE, Bool.not_false, true_and, if_pos]
      cases hL : (ranked.take topk).getLast? with
      | none =>
        have hbase : ranked.take topk = [] := by
          simpa [List.getLast?_eq_none_iff] using hL
        simp [dynamicKPolicy, hbase]
      | some b =>
        cases hD : ranked.drop topk with
        | nil => simp [dynamicKPolicy, hL, hD, slidingKeep]
        | cons d ds =>
          have hbase : ranked.take topk ≠ [] := by
            intro h
            rw [h] at hL
            simp at hL
          have htop : 0 < topk := by
            by_contra h
            have : topk = 0 := by omega
            subst this
            simp at hbase
          have hlen : (ranked.take topk).length < 2 * topk := by
            have : (ranked.take topk).length ≤ topk := by simp [List.length_take]
            omega
          simp only [dynamicKPolicy, hL, hD]
          rw [dynamicKExtend_eq_slidingKeep topk (d :: ds) b.similarity_score
            (ranked.take topk).length hlen]
  refine ⟨hstatic, hdyn, ?_, ?_, ?_⟩
  · rw [hdyn]; exact dynamicKPolicy_length ranked topk
  · norm_num [applyTopK]
  · norm_num [applyTopK, exampleRanked, exampleHit, dynamicKExtend]

/-- The word sequence of a list of chunks: the words of their
whitespace-separated concatenation. -/
def joinWords : List (List Char) → List (List Char)
  | [] => []
  | x :: l => pyWords x ++ joinWords l

theorem pyWordsAux_append_space (a : List Char) :
    ∀ (acc b : List Char), pyWordsAux (a ++ ' ' :: b) acc = pyWordsAux a acc ++ pyWordsAux b [] := by
  have hsp : pyIsSpace ' ' = true := by decide
  induction a with
  | nil =>
    intro acc b
    by_cases h : acc.isEmpty <;> simp [pyWordsAux, hsp, h]
  | cons c cs ih =>
    intro acc b
    by_cases hc : pyIsSpace c
    · by_cases ha : acc.isEmpty <;> simp [pyWordsAux, hc, ha, ih]
    · simp [pyWordsAux, hc, ih]

theorem pyWords_append_space (a b : List Char) :
    pyWords (a ++ ' ' :: b) = pyWords a ++ pyWords b :=
  pyWordsAux_append_space a [] b

theorem pyWords_nil : pyWords [] = [] := rfl

theorem joinWords_cons (x : List Char) (l : List (List Char)) :
    joinWords (x :: l) = pyWords x ++ joinWords l := rfl

theorem pyWords_merged (carry chunk : List Char) :
    pyWords (if carry = [] then chunk else carry ++ ' ' :: chunk) =
      pyWords carry ++ pyWords chunk := by
  by_cases h : carry = []
  · subst h
    simp [pyWords_nil]
  · simp [h, pyWords_append_space]

theorem mergeLoop_join (minWords : Nat) (l : List (List Char)) :
    ∀ carry : List Char,
      joinWords (mergeLoop minWords l carry).1 ++ pyWords (mergeLoop minWords l carry).2 =
        pyWords carry ++ joinWords l := by
  induction l with
  | nil => intro carry; simp [mergeLoop, joinWords]
  | cons chunk rest ih =>
    intro carry
    by_cases hlen :
        (pyWords (if carry = [] then chunk else carry ++ ' ' :: chunk)).length < minWords
    · simp only [mergeLoop, hlen, if_pos]
      rw [ih, pyWords_merged, joinWords_cons, List.append_assoc]
    · simp only [mergeLoop, hlen, if_neg, not_false_iff]
      rw [joinWords_cons, List.append_assoc, ih [], pyWords_nil, List.nil_append,
        pyWords_merged, joinWords_cons, List.append_assoc]

theorem appendToLast_join (m : List (List Char)) :
    ∀ carry : List Char, joinWords (appendToLast m carry) = joinWords m ++ pyWords carry := by
  induction m with
  | nil => intro carry; simp [appendToLast, joinWords]
  | cons x rest ih =>
    intro carry
    cases rest with
    | nil =>
      simp only [appendToLast, joinWords, pyWords_append_space]
      simp
    | cons y ys =>
      rw [appendToLast, joinWords_cons, joinWords_cons, ih carry, List.append_assoc]

/-- C10: orphan merging preserves content — the word sequence of the
output of `_merge_orphan_chunks` equals the word sequence of its input;
no word is dropped, duplicated or reordered. -/
theorem merge_orphan_preserves_words (chunks : List (List Char)) (minWords : Nat) :
    joinWords (mergeOrphanChunks chunks minWords) = joinWords chunks := by
  by_cases hE : chunks = []
  · simp [mergeOrphanChunks, hE]
  · have h := mergeLoop_join minWords chunks []
    simp only [pyWords_nil, List.nil_append] at h
    rw [mergeOrphanChunks]
    simp only [hE, if_neg, not_false_iff]
    by_cases hc : (mergeLoop minWords chunks []).2 = []
    · simp only [hc, if_pos]
      rw [← h, hc, pyWords_nil, List.append_nil]
    · simp only [hc, if_neg, not_false_iff]
      rw [appendToLast_join, h]

theorem mergeLoop_emitted_long (minWords : Nat) (l : List (List Char)) :
    ∀ (carry : List Char) (x : List Char), x ∈ (mergeLoop minWords l carry).1 →
      minWords ≤ (pyWords x).length := by
  induction l with
  | nil => intro carry x hx; simp [mergeLoop] at hx
  | cons chunk rest ih =>
    intro carry x hx
    by_cases hlen :
        (pyWords (if carry = [] then chunk else carry ++ ' ' :: chunk)).length < minWords
    · simp only [mergeLoop, hlen, if_pos] at hx
      exact ih _ x hx
    · simp only [mergeLoop, hlen, if_neg, not_false_iff, List.mem_cons] at hx
      rcases hx with rfl | hx
      · omega
      · exact ih [] x hx

theorem appendToLast_mem_long (minWords : Nat) (m : List (List Char)) :
    ∀ (carry x : List Char), m ≠ [] → (∀ y ∈ m, minWords ≤ (pyWords y).length) →
      x ∈ appendToLast m carry → minWords ≤ (pyWords x).length := by
  induction m with
  | nil => intro carry x hne _ _; exact absurd rfl hne
  | cons a rest ih =>
    intro carry x _ hlong hx
    cases rest with
    | nil =>
      simp only [appendToLast, List.mem_singleton] at hx
      subst hx
      have := hlong a (by simp)
      rw [pyWords_append_space]
      simp only [List.length_append]
      omega
    | cons y ys =>
      simp only [appendToLast, List.mem_cons] at hx
      rcases hx with rfl | hx
      · exact hlong x (by simp)
      · exact ih carry x (by simp) (fun z hz => hlong z (by simp [hz])) hx

theorem mergeOrphanChunks_cases (chunks : List (List Char)) (minWords : Nat) :
    (∀ x ∈ mergeOrphanChunks chunks minWords, minWords ≤ (pyWords x).length) ∨
    (∃ c0, mergeOrphanChunks chunks minWords = [c0]) := by
  by_cases hE : chunks = []
  · left
    intro x hx
    simp [mergeOrphanChunks, hE] at hx
  · rw [mergeOrphanChunks]
    simp only [hE, if_neg, not_false_iff]
    by_cases hc : (mergeLoop minWords chunks []).2 = []
    · left
      intro x hx
      simp only [hc, if_pos] at hx
      exact mergeLoop_emitted_long minWords chunks [] x hx
    · simp only [hc, if_neg, not_false_iff]
      cases hp : (mergeLoop minWords chunks []).1 with
      | nil => exact Or.inr ⟨(mergeLoop minWords chunks []).2, rfl⟩
      | cons a as =>
        left
        intro x hx
        refine appendToLast_mem_long minWords (a :: as) _ x (List.cons_ne_nil a as) ?_ hx
        exact fun y hy => mergeLoop_emitted_long minWords chunks [] y (hp ▸ hy)

/-- C6 (amended): after orphan post-processing no emitted chunk is shorter
than the minimum word count unless it is the sole chunk of the output
(which happens when every prefix-merge of the input stays short); short
chunks are merged into a neighbouring chunk rather than emitted
standalone. -/
theorem merge_orphan_no_short_standalone (chunks : List (List Char)) (minWords : Nat)
    (c : List Char) (hc : c ∈ mergeOrphanChunks chunks minWords) :
    minWords ≤ (pyWords c).length ∨ mergeOrphanChunks chunks minWords = [c] := by
  rcases mergeOrphanChunks_cases chunks minWords with h | ⟨c0, h⟩
  · exact Or.inl (h c hc)
  · rw [h] at hc
    simp only [List.mem_singleton] at hc
    subst hc
    exact Or.inr h

/-- C6 (witness): the amended theorem applied to a concrete chunk list
whose orphan is absorbed by its neighbour. -/
theorem merge_orphan_no_short_standalone_witness :
    5 ≤ (pyWords "tiny seven eight nine ten eleven".data).length ∨
      mergeOrphanChunks ["one two three four five six".data, "tiny".data,
        "seven eight nine ten eleven".data] 5 = ["tiny seven eight nine ten eleven".data] :=
  merge_orphan_no_short_standalone
    ["one two three four five six".data, "tiny".data, "seven eight nine ten eleven".data] 5
    "tiny seven eight nine ten eleven".data (by decide)

/-- C6 (counterexample): the claim as stated fails — an input consisting of
a single 1-word chunk is returned unchanged, so a chunk shorter than the
5-word minimum appears standalone in the final output; moreover an orphan
between two long chunks is concatenated onto the *following* chunk (it is
carried forward), not onto the previous emitted chunk as claimed. -/
theorem merge_orphan_counterexample :
    (mergeOrphanChunks ["hi".data] 5 = ["hi".data] ∧ (pyWords "hi".data).length < 5) ∧
    mergeOrphanChunks ["one two three four five six".data, "tiny".data,
        "seven eight nine ten eleven".data] 5 =
      ["one two three four five six".data, "tiny seven eight nine ten eleven".data] := by
  decide

theorem chunkLoop_spec (text : List Char) (csize step : Nat) (hstep : 0 < step) :
    ∀ (n start : Nat), text.length - start ≤ n →
      (∀ i, i < (chunkLoop text csize step hstep start).length ↔
        start + i * step < text.length) ∧
      (∀ i (hi : i < (chunkLoop text csize step hstep start).length),
        (chunkLoop text csize step hstep start).get ⟨i, hi⟩ =
          (text.drop (start + i * step)).take csize) := by
  intro n
  induction n with
  | zero =>
    intro start hn
    have hge : ¬ start < text.length := by omega
    rw [chunkLoop]
    simp only [hge, dif_neg, not_false_iff]
    constructor
    · intro i
      simp only [List.length_nil]
      constructor
      · omega
      · intro h
        have : start ≤ start + i * step := Nat.le_add_right _ _
        omega
    · intro i hi
      simp at hi
  | succ n ihn =>
    intro start hn
    by_cases hlt : start < text.length
    · have heq : chunkLoop text csize step hstep start =
          ((text.drop start).take csize) :: chunkLoop text csize step hstep (start + step) := by
        rw [chunkLoop]
        simp [hlt]
      rw [heq]
      obtain ⟨ih1, ih2⟩ := ihn (start + step) (by omega)
      constructor
      · intro i
        cases i with
        | zero => simp [hlt]
        | succ j =>
          have harith : start + (j + 1) * step = start + step + j * step := by ring
          simp only [List.length_cons, Nat.succ_lt_succ_iff, harith]
          exact ih1 j
      · intro i hi
        cases i with
        | zero => simp [hlt]
        | succ j =>
          have harith : start + (j + 1) * step = start + step + j * step := by ring
          have hj : j < (chunkLoop text csize step hstep (start + step)).length := by
            simpa using hi
          have hrec := ih2 j hj
          simpa [harith] using hrec
    · rw [chunkLoop]
      simp only [hlt, dif_neg, not_false_iff]
      constructor
      · intro i
        simp only [List.length_nil]
        constructor
        · omega
        · intro h
          have : start ≤ start + i * step := Nat.le_add_right _ _
          omega
      · intro i hi
        simp at hi

/-- C9 (amended): for `overlap < chunk_size` the chunker terminates and
returns `.ok chunks` where chunk `i` is exactly the slice
`text[i*(chunk_size-overlap) : i*(chunk_size-overlap)+chunk_size]` — so it
starts at character `i*(chunk_size-overlap)` and has at most `chunk_size`
characters (trailing windows, not only the last chunk, may be shorter) —
a chunk exists exactly while its start lies inside the text, the empty
text yields no chunks, and `chunk_size <= overlap` raises `ValueError`
instead of looping. -/
theorem chunk_text_slices (text : List Char) (cs ov : Nat) (hov : ov < cs) :
    (∃ chunks, chunkText text cs ov = .ok chunks ∧
      (∀ i, i < chunks.length ↔ i * (cs - ov) < text.length) ∧
      (∀ i (hi : i < chunks.length),
        chunks.get ⟨i, hi⟩ = (text.drop (i * (cs - ov))).take cs) ∧
      (∀ ch ∈ chunks, ch.length ≤ cs) ∧
      (text = [] → chunks = [])) ∧
    (∀ cs2 ov2 : Nat, cs2 ≤ ov2 →
      chunkText text cs2 ov2 = .error "chunk_size must be greater than overlap.") := by
  constructor
  · have hstep : 0 < cs - ov := by omega
    obtain ⟨h1, h2⟩ := chunkLoop_spec text cs (cs - ov) hstep text.length 0 (by omega)
    refine ⟨chunkLoop text cs (cs - ov) hstep 0, ?_, ?_, ?_, ?_, ?_⟩
    · rw [chunkText, dif_neg (by omega : ¬ cs ≤ ov)]
    · intro i
      simpa using h1 i
    · intro i hi
      simpa using h2 i hi
    · intro ch hch
      obtain ⟨⟨i, hi⟩, rfl⟩ := List.mem_iff_get.mp hch
      rw [h2 i hi]
      exact (List.length_take_le _ _)
    · intro hnil
      have htl : text.length = 0 := by simp [hnil]
      have h0 := h1 0
      exact List.eq_nil_of_length_eq_zero (by omega)
  · intro cs2 ov2 h
    rw [chunkText]
    simp only [h, dif_pos]

/-- C9 (witness): the amended theorem applied to `"abcdefghi"` with
`chunk_size = 4`, `overlap = 2`. -/
theorem chunk_text_slices_witness :
    ∃ chunks, chunkText "abcdefghi".data 4 2 = .ok chunks ∧
      (∀ i, i < chunks.length ↔ i * (4 - 2) < "abcdefghi".data.length) ∧
      (∀ i (hi : i < chunks.length),
        chunks.get ⟨i, hi⟩ = ("abcdefghi".data.drop (i * (4 - 2))).take 4) ∧
      (∀ ch ∈ chunks, ch.length ≤ 4) ∧
      ("abcdefghi".data = [] → chunks = []) :=
  (chunk_text_slices "abcdefghi".data 4 2 (by omega)).1

/-- C9 (counterexample): the claim that every returned chunk except
possibly the last has exactly `chunk_size` characters is false — for the
9-character text `"abcdefghi"` with `chunk_size = 4`, `overlap = 2` the
chunker returns 5 chunks and the fourth chunk `"ghi"` (index 3, not the
last) has 3 characters. -/
theorem chunk_text_counterexample :
    chunkText "abcdefghi".data 4 2 =
      .ok ["abcd".data, "cdef".data, "efgh".data, "ghi".data, "i".data] ∧
    (["abcd".data, "cdef".data, "efgh".data, "ghi".data, "i".data].length = 5 ∧
      "ghi".data.length = 3) := by
  constructor
  · simp [chunkText, chunkLoop]
  · decide

/-- The score stored for position `p` (if any). -/
def scoreAt (l : List (Int × FusedHit)) (p : Int) : Option ℚ :=
  (dictGet l p).map (fun e => e.similarity_score)

/-- The inner per-hit fold that `maxScoreAt` performs for one
reformulation. -/
def foldMaxAt (th : Option ℚ) (p : Int) (hits : List (Int × ℚ)) (m : Option ℚ) : Option ℚ :=
  hits.foldl (fun m1 pr => if pr.1 = p ∧ passesThreshold th pr.2 then someMax m1 pr.2 else m1) m

theorem dictGet_dictSet (l : List (Int × FusedHit)) (k p : Int) (v : FusedHit) :
    dictGet (dictSet l k v) p = if k = p then some v else dictGet l p := by
  induction l with
  | nil => simp [dictGet, dictSet]
  | cons kv rest ih =>
    obtain ⟨k1, v1⟩ := kv
    by_cases h1 : k1 = k
    · subst h1
      by_cases h2 : k1 = p <;> simp [dictGet, dictSet, h2]
    · simp only [dictSet, h1, if_neg, not_false_iff]
      by_cases h2 : k1 = p
      · subst h2
        have h3 : ¬ k = k1 := fun h => h1 h.symm
        simp [dictGet, h3]
      · simp [dictGet, h2, ih]

theorem fuseStep_eq_or (g : Int → Option StoredChunk) (th : Option ℚ) (q : String)
    (acc : List (Int × FusedHit)) (pr : Int × ℚ) :
    fuseStep g th q acc pr = acc ∨
      ∃ v, fuseStep g th q acc pr = dictSet acc pr.1 v := by
  unfold fuseStep
  by_cases hpass : passesThreshold th pr.2
  · cases hget : dictGet acc pr.1 with
    | none =>
      cases hg : g pr.1 with
      | none => left; simp [hpass, hget, hg]
      | some c => right; exact ⟨mkFusedHit pr.1 c pr.2 q, by simp [hpass, hget, hg]⟩
    | some e =>
      by_cases hlt : e.similarity_score < pr.2
      · cases hg : g pr.1 with
        | none => left; simp [hpass, hget, hg, hlt]
        | some c => right; exact ⟨mkFusedHit pr.1 c pr.2 q, by simp [hpass, hget, hg, hlt]⟩
      · left; simp [hpass, hget, hlt]
  · left; simp [hpass]

theorem scoreAt_fuseStep (g : Int → Option StoredChunk) (th : Option ℚ) (q : String)
    (acc : List (Int × FusedHit)) (pr : Int × ℚ) (p : Int) (hgp : (g p).isSome) :
    scoreAt (fuseStep g th q acc pr) p =
      if pr.1 = p ∧ passesThreshold th pr.2 then someMax (scoreAt acc p) pr.2
      else scoreAt acc p := by
  by_cases hp : pr.1 = p
  · subst hp
    obtain ⟨c, hc⟩ : ∃ c, g pr.1 = some c := Option.isSome_iff_exists.mp hgp
    unfold fuseStep
    by_cases hpass : passesThreshold th pr.2
    · cases hget : dictGet acc pr.1 with
      | none => simp [hget, hc, hpass, scoreAt, dictGet_dictSet, someMax, mkFusedHit]
      | some e =>
        by_cases hlt : e.similarity_score < pr.2
        · simp [hget, hc, hpass, hlt, scoreAt, dictGet_dictSet, someMax, mkFusedHit,
            max_eq_right (le_of_lt hlt)]
        · simp [hget, hc, hpass, hlt, scoreAt, someMax, max_eq_left (not_lt.mp hlt)]
    · simp [hpass, scoreAt]
  · have hunch : scoreAt (fuseStep g th q acc pr) p = scoreAt acc p := by
      rcases fuseStep_eq_or g th q acc pr with h | ⟨v, h⟩
      · rw [h]
      · rw [h]
        unfold scoreAt
        rw [dictGet_dictSet]
        simp [hp]
    rw [hunch]
    simp [hp]

theorem scoreAt_fuseHits (g : Int → Option StoredChunk) (th : Option ℚ) (q : String)
    (p : Int) (hgp : (g p).isSome) :
    ∀ (hits : List (Int × ℚ)) (acc : List (Int × FusedHit)),
      scoreAt (fuseHits g th q hits acc) p = foldMaxAt th p hits (scoreAt acc p) := by
  intro hits
  induction hits with
  | nil => intro acc; rfl
  | cons pr hits ih =>
    intro acc
    show scoreAt (fuseHits g th q hits (fuseStep g th q acc pr)) p = _
    rw [ih, scoreAt_fuseStep g th q acc pr p hgp]
    rfl

theorem scoreAt_fuseAll (g : Int → Option StoredChunk) (th : Option ℚ)
    (results : List (String × List (Int × ℚ))) (p : Int) (hgp : (g p).isSome) :
    scoreAt (fuseAll g th results) p = maxScoreAt th results p := by
  have key : ∀ (rs : List (String × List (Int × ℚ))) (acc : List (Int × FusedHit)),
      scoreAt (rs.foldl (fun a qr => fuseHits g th qr.1 qr.2 a) acc) p =
        rs.foldl (fun m qr => foldMaxAt th p qr.2 m) (scoreAt acc p) := by
    intro rs
    induction rs with
    | nil => intro acc; rfl
    | cons qr rs ih =>
      intro acc
      show scoreAt (rs.foldl _ (fuseHits g th qr.1 qr.2 acc)) p = _
      rw [ih, scoreAt_fuseHits g th qr.1 p hgp qr.2 acc]
      rfl
  exact key results []

theorem mem_keys_dictSet (l : List (Int × FusedHit)) (k q : Int) (v : FusedHit) :
    q ∈ (dictSet l k v).map Prod.fst → q ∈ l.map Prod.fst ∨ q = k := by
  induction l with
  | nil => simp [dictSet]
  | cons kv rest ih =>
    obtain ⟨k1, v1⟩ := kv
    by_cases h1 : k1 = k
    · subst h1
      simp [dictSet]
      tauto
    · simp only [dictSet, h1, if_neg, not_false_iff, List.map_cons, List.mem_cons]
      intro h
      rcases h with h | h
      · exact Or.inl (by simp [h])
      · rcases ih h with h2 | h2
        · exact Or.inl (by simp [h2])
        · exact Or.inr h2

theorem nodup_keys_dictSet (l : List (Int × FusedHit)) (k : Int) (v : FusedHit)
    (hl : (l.map Prod.fst).Nodup) : ((dictSet l k v).map Prod.fst).Nodup := by
  induction l with
  | nil => simp [dictSet]
  | cons kv rest ih =>
    obtain ⟨k1, v1⟩ := kv
    simp only [List.map_cons, List.nodup_cons] at hl
    by_cases h1 : k1 = k
    · subst h1
      simpa [dictSet] using hl
    · simp only [dictSet, h1, if_neg, not_false_iff, List.map_cons, List.nodup_cons]
      refine ⟨fun hmem => ?_, ih hl.2⟩
      rcases mem_keys_dictSet rest k k1 v hmem with h | h
      · exact hl.1 h
      · exact h1 h

theorem nodup_keys_fuseAll (g : Int → Option StoredChunk) (th : Option ℚ)
    (results : List (String × List (Int × ℚ))) :
    ((fuseAll g th results).map Prod.fst).Nodup := by
  have hstep : ∀ (q : String) (acc : List (Int × FusedHit)) (pr : Int × ℚ),
      (acc.map Prod.fst).Nodup → ((fuseStep g th q acc pr).map Prod.fst).Nodup := by
    intro q acc pr hacc
    rcases fuseStep_eq_or g th q acc pr with h | ⟨v, h⟩
    · rwa [h]
    · rw [h]
      exact nodup_keys_dictSet acc pr.1 v hacc
  have hhits : ∀ (q : String) (hits : List (Int × ℚ)) (acc : List (Int × FusedHit)),
      (acc.map Prod.fst).Nodup → ((fuseHits g th q hits acc).map Prod.fst).Nodup := by
    intro q hits
    induction hits with
    | nil => intro acc h; exact h
    | cons pr hits ih =>
      intro acc h
      exact ih (fuseStep g th q acc pr) (hstep q acc pr h)
  have hall : ∀ (rs : List (String × List (Int × ℚ))) (acc : List (Int × FusedHit)),
      (acc.map Prod.fst).Nodup →
        ((rs.foldl (fun a qr => fuseHits g th qr.1 qr.2 a) acc).map Prod.fst).Nodup := by
    intro rs
    induction rs with
    | nil => intro acc h; exact h
    | cons qr rs ih =>
      intro acc h
      exact ih (fuseHits g th qr.1 qr.2 acc) (hhits qr.1 qr.2 acc h)
  exact hall results [] (by simp)

theorem dictGet_fuseStep_origin (g : Int → Option StoredChunk) (th : Option ℚ) (q : String)
    (acc : List (Int × FusedHit)) (pr : Int × ℚ) (p : Int) (e : FusedHit)
    (h : dictGet (fuseStep g th q acc pr) p = some e) :
    dictGet acc p = some e ∨
      (pr.1 = p ∧ passesThreshold th pr.2 = true ∧
        ∃ c, g p = some c ∧ e = mkFusedHit p c pr.2 q) := by
  unfold fuseStep at h
  by_cases hpass : passesThreshold th pr.2
  · rw [if_pos hpass] at h
    cases hrep : (match dictGet acc pr.1 with
        | none => true
        | some e1 => decide (e1.similarity_score < pr.2)) with
    | false => rw [hrep] at h; simp at h; exact Or.inl h
    | true =>
      rw [hrep] at h
      simp only [if_true] at h
      cases hg : g pr.1 with
      | none => rw [hg] at h; exact Or.inl h
      | some c =>
        rw [hg] at h
        rw [dictGet_dictSet] at h
        by_cases hp : pr.1 = p
        · subst hp
          simp only [if_pos] at h
          exact Or.inr ⟨rfl, hpass, c, hg, (Option.some_injective _ h).symm⟩
        · rw [if_neg hp] at h
          exact Or.inl h
  · rw [if_neg hpass] at h
    exact Or.inl h

theorem dictGet_fuseHits_origin (g : Int → Option StoredChunk) (th : Option ℚ) (q : String) :
    ∀ (hits : List (Int × ℚ)) (acc : List (Int × FusedHit)) (p : Int) (e : FusedHit),
      dictGet (fuseHits g th q hits acc) p = some e →
      dictGet acc p = some e ∨
        ∃ pr ∈ hits, pr.1 = p ∧ passesThreshold th pr.2 = true ∧
          ∃ c, g p = some c ∧ e = mkFusedHit p c pr.2 q := by
  intro hits
  induction hits with
  | nil => intro acc p e h; exact Or.inl h
  | cons pr hits ih =>
    intro acc p e h
    rcases ih (fuseStep g th q acc pr) p e h with h1 | ⟨pr1, hpr1, hrest⟩
    · rcases dictGet_fuseStep_origin g th q acc pr p e h1 with h2 | h2
      · exact Or.inl h2
      · exact Or.inr ⟨pr, by simp, h2⟩
    · exact Or.inr ⟨pr1, by simp [hpr1], hrest⟩

theorem dictGet_fuseAll_origin (g : Int → Option StoredChunk) (th : Option ℚ)
    (results : List (String × List (Int × ℚ))) (p : Int) (e : FusedHit)
    (h : dictGet (fuseAll g th results) p = some e) :
    ∃ qh ∈ results, ∃ pr ∈ qh.2, pr.1 = p ∧ passesThreshold th pr.2 = true ∧
      ∃ c, g p = some c ∧ e = mkFusedHit p c pr.2 qh.1 := by
  have key : ∀ (rs : List (String × List (Int × ℚ))) (acc : List (Int × FusedHit)),
      dictGet (rs.foldl (fun a qr => fuseHits g th qr.1 qr.2 a) acc) p = some e →
      dictGet acc p = some e ∨
        ∃ qh ∈ rs, ∃ pr ∈ qh.2, pr.1 = p ∧ passesThreshold th pr.2 = true ∧
          ∃ c, g p = some c ∧ e = mkFusedHit p c pr.2 qh.1 := by
    intro rs
    induction rs with
    | nil => intro acc hh; exact Or.inl hh
    | cons qr rs ih =>
      intro acc hh
      rcases ih (fuseHits g th qr.1 qr.2 acc) hh with h1 | ⟨qh, hqh, hrest⟩
      · rcases dictGet_fuseHits_origin g th qr.1 qr.2 acc p e h1 with h2 | ⟨pr, hpr, hrest⟩
        · exact Or.inl h2
        · exact Or.inr ⟨qr, by simp, pr, hpr, hrest⟩
      · exact Or.inr ⟨qh, by simp [hqh], hrest⟩
  rcases key results [] h with h1 | h1
  · simp [dictGet] at h1
  · exact h1

/-- The chunk getter of the spec's fusion example: positions 0 and 1
resolve to distinct contents; every other position (for instance a chunk
raced with deletion) fails to resolve. -/
def examplePartialGetter : Int → Option StoredChunk := fun i =>
  if i = 0 then
    some { chunk_id := "id0", document_id := "doc", chunk_index := 0,
           content := "contentA", metadata := "", created_at := "t" }
  else if i = 1 then
    some { chunk_id := "id1", document_id := "doc", chunk_index := 1,
           content := "contentB", metadata := "", created_at := "t" }
  else none

/-- The spec's fusion example: one reformulation produces
`{posA: 0.6}` and another `{posA: 0.9, posB: 0.4}`. -/
def exampleFusionResults : List (String × List (Int × ℚ)) :=
  [("q1", [(0, 6/10)]), ("q2", [(0, 9/10), (1, 4/10)])]

/-- The fusion example extended with a hit at position 2, whose chunk
`examplePartialGetter` cannot resolve. -/
def exampleFusionResultsSkip : List (String × List (Int × ℚ)) :=
  [("q1", [(0, 6/10), (2, 8/10)]), ("q2", [(0, 9/10), (1, 4/10)])]

/-- C2: fusion is a keep-max merge keyed by position — for every position
whose chunk resolves via the chunk store, the fused map's entry carries
the highest score seen for that position across all reformulations
(threshold-surviving hits); a position whose chunk cannot be resolved is
skipped without failing the fusion (it simply has no entry); keys are
duplicate-free, and every stored entry records the reformulated query
that produced its score and the content resolved from the chunk store.
On the spec's example the fused result holds posA at 0.9 and posB at 0.4
(both produced by the second reformulation), also in the presence of an
unresolvable position 2 whose hit is skipped. -/
theorem fusion_keep_max (g : Int → Option StoredChunk) (th : Option ℚ)
    (results : List (String × List (Int × ℚ))) :
    (∀ p : Int, (g p).isSome →
      (dictGet (fuseAll g th results) p).map (fun e => e.similarity_score) =
        maxScoreAt th results p) ∧
    (∀ p : Int, g p = none → dictGet (fuseAll g th results) p = none) ∧
    ((fuseAll g th results).map Prod.fst).Nodup ∧
    (∀ (p : Int) (e : FusedHit), dictGet (fuseAll g th results) p = some e →
      ∃ qh ∈ results, (p, e.similarity_score) ∈ qh.2 ∧ e.matched_query = qh.1 ∧
        ∃ c, g p = some c ∧ e.content = c.content) ∧
    ((fuseAll examplePartialGetter none exampleFusionResults).map
        (fun pr => (pr.1, pr.2.similarity_score, pr.2.matched_query, pr.2.content)) =
      [(0, 9/10, "q2", "contentA"), (1, 4/10, "q2", "contentB")]) ∧
    ((fuseAll examplePartialGetter none exampleFusionResultsSkip).map
        (fun pr => (pr.1, pr.2.similarity_score, pr.2.matched_query, pr.2.content)) =
      [(0, 9/10, "q2", "contentA"), (1, 4/10, "q2", "contentB")] ∧
     dictGet (fuseAll examplePartialGetter none exampleFusionResultsSkip) 2 = none) := by
  refine ⟨fun p hgp => scoreAt_fuseAll g th results p hgp, ?_,
    nodup_keys_fuseAll g th results, ?_, ?_, ?_, ?_⟩
  · intro p hgp
    cases hd : dictGet (fuseAll g th results) p with
    | none => rfl
    | some e =>
      obtain ⟨qh, hqh, pr, hpr, hp, hpass, c, hc, he⟩ :=
        dictGet_fuseAll_origin g th results p e hd
      rw [hgp] at hc
      exact absurd hc (by simp)
  · intro p e h
    obtain ⟨qh, hqh, pr, hpr, hp, hpass, c, hc, he⟩ :=
      dictGet_fuseAll_origin g th results p e h
    obtain ⟨a, b⟩ := pr
    simp only at hp
    subst hp
    subst he
    exact ⟨qh, hqh, hpr, rfl, c, hc, rfl⟩
  · norm_num [fuseAll, fuseHits, fuseStep, mkFusedHit, passesThreshold, examplePartialGetter,
      dictGet, dictSet, exampleFusionResults]
  · norm_num [fuseAll, fuseHits, fuseStep, mkFusedHit, passesThreshold, examplePartialGetter,
      dictGet, dictSet, exampleFusionResultsSkip]
  · norm_num [fuseAll, fuseHits, fuseStep, mkFusedHit, passesThreshold, examplePartialGetter,
      dictGet, dictSet, exampleFusionResultsSkip]

/-- C2 (witness): the keep-max theorem applied to the example with an
unresolvable position — the resolvable position 0 carries the maximum 0.9
and the unresolvable position 2 is skipped (absent from the fused map). -/
theorem fusion_keep_max_witness :
    ((dictGet (fuseAll examplePartialGetter none exampleFusionResultsSkip) 0).map
        (fun e => e.similarity_score) = maxScoreAt none exampleFusionResultsSkip 0 ∧
      maxScoreAt none exampleFusionResultsSkip 0 = some (9/10)) ∧
    dictGet (fuseAll examplePartialGetter none exampleFusionResultsSkip) 2 = none :=
  ⟨⟨(fusion_keep_max examplePartialGetter none exampleFusionResultsSkip).1 0 rfl,
    by norm_num [maxScoreAt, someMax, passesThreshold, exampleFusionResultsSkip, max_def]⟩,
   (fusion_keep_max examplePartialGetter none exampleFusionResultsSkip).2.1 2 rfl⟩

theorem mem_insertByDesc {α} (key : α → ℚ) (x a : α) (l : List α) :
    a ∈ insertByDesc key x l ↔ a = x ∨ a ∈ l := by
  induction l with
  | nil => simp [insertByDesc]
  | cons y ys ih =>
    by_cases h : key x < key y
    · simp [insertByDesc, h, ih]
      tauto
    · simp [insertByDesc, h]

theorem mem_sortByDesc {α} (key : α → ℚ) (a : α) (l : List α) :
    a ∈ sortByDesc key l ↔ a ∈ l := by
  induction l with
  | nil => simp [sortByDesc]
  | cons y ys ih =>
    show a ∈ insertByDesc key y (sortByDesc key ys) ↔ _
    rw [mem_insertByDesc]
    simp [ih]

theorem length_insertByDesc {α} (key : α → ℚ) (x : α) (l : List α) :
    (insertByDesc key x l).length = l.length + 1 := by
  induction l with
  | nil => rfl
  | cons y ys ih =>
    by_cases h : key x < key y <;> simp [insertByDesc, h, ih]

theorem length_sortByDesc {α} (key : α → ℚ) (l : List α) :
    (sortByDesc key l).length = l.length := by
  induction l with
  | nil => rfl
  | cons y ys ih =>
    show (insertByDesc key y (sortByDesc key ys)).length = _
    rw [length_insertByDesc, ih]
    rfl

theorem sessionChunkGetter_nil (i : Int) : sessionChunkGetter [] i = none := by
  unfold sessionChunkGetter
  rw [dif_neg]
  rintro ⟨_, h2⟩
  simp at h2

theorem fuseStep_none_getter (g : Int → Option StoredChunk) (th : Option ℚ) (q : String)
    (acc : List (Int × FusedHit)) (pr : Int × ℚ) (hg : ∀ i, g i = none) :
    fuseStep g th q acc pr = acc := by
  unfold fuseStep
  rw [hg pr.1]
  repeat' split
  all_goals simp_all

theorem fuseHits_none_getter (g : Int → Option StoredChunk) (th : Option ℚ) (q : String)
    (hg : ∀ i, g i = none) :
    ∀ (hits : List (Int × ℚ)) (acc : List (Int × FusedHit)),
      fuseHits g th q hits acc = acc := by
  intro hits
  induction hits with
  | nil => intro acc; rfl
  | cons pr hits ih =>
    intro acc
    show fuseHits g th q hits (fuseStep g th q acc pr) = acc
    rw [fuseStep_none_getter g th q acc pr hg, ih]

theorem runQueries_none_getter (deps : RetrievalDeps) (th : Option ℚ) (origQuery : String)
    (initialK : Nat) (hg : ∀ i, deps.chunkGetter i = none)
    (hok : ∀ s, ∃ v sr, deps.embed s = Except.ok v ∧ deps.search v initialK = Except.ok sr) :
    ∀ (qs : List String) (st : List (Int × FusedHit) × String),
      ∃ lastQ, runQueries deps th origQuery initialK qs st = .ok (st.1, lastQ) := by
  intro qs
  induction qs with
  | nil => intro st; exact ⟨st.2, rfl⟩
  | cons q rest ih =>
    intro st
    obtain ⟨v, sr, hv, hsr⟩ := hok (origQuery ++ " | " ++ q)
    obtain ⟨lastQ, hrun⟩ := ih (st.1, origQuery ++ " | " ++ q)
    refine ⟨lastQ, ?_⟩
    simp only [runQueries, hv, hsr,
      fuseHits_none_getter deps.chunkGetter th (origQuery ++ " | " ++ q) hg]
    exact hrun

theorem applyTopK_nil (topk : Nat) (dynamicK : Bool) : applyTopK [] topk dynamicK = [] := by
  cases dynamicK <;> simp [applyTopK]

/-- C7: searches over a small or empty index are harmless — every row of
`search_index` either carries the sentinel position `-1` or a stored
position below the index size; when the index holds at most `k` vectors
every stored position occurs among the results; the error path is exactly
the query's own invalidity (empty embedding, or a dimension mismatch
against the store), never the index being small: a valid query against an
empty index returns `.ok` rows whose positions are all the filtered-out
sentinel `-1`; and a full `retrieve_data` against a session with zero
indexed chunks returns a successful result with zero hits rather than an
error, for any threshold, `top_k`, `dynamic_k`, pad score and rewriter,
whenever the embedder returns non-empty vectors of the session's
dimension. -/
theorem search_bounds_empty_session (stored : List (List ℚ)) (q : List ℚ) (k : Nat)
    (pad : ℚ) :
    (∀ pr ∈ searchRanked stored q k pad,
      pr.1 = -1 ∨ (0 ≤ pr.1 ∧ pr.1.toNat < stored.length)) ∧
    (stored.length ≤ k → ∀ j, j < stored.length →
      ∃ s, ((j : Int), s) ∈ searchRanked stored q k pad) ∧
    (∀ dim : Nat,
      searchIndexModel dim stored [] k pad = .error "Query Embedding cannot be empty.") ∧
    (∀ dim : Nat, q ≠ [] → q.length ≠ dim →
      searchIndexModel dim stored q k pad =
        .error "Unable to search the query in the database.") ∧
    (∀ dim : Nat, q ≠ [] → q.length = dim →
      ∃ rows, searchIndexModel dim ([] : List (List ℚ)) q k pad = .ok rows ∧
        rows.1.filter (fun i => decide (i ≠ -1)) = []) ∧
    (∀ (rewriteF : String → Except String (List String))
        (embed : String → Except String (List ℚ)) (query : String) (topk : Nat)
        (dynamicK : Bool) (th : Option ℚ) (qs : List String) (dim : Nat),
      query.data.all pyIsSpace = false → rewriteF query = .ok qs → qs ≠ [] →
      (∀ s, ∃ v, embed s = Except.ok v ∧ v ≠ [] ∧ v.length = dim) →
      ∃ out, retrieveData (sessionDeps rewriteF embed (emptySessionStores dim) pad)
          query topk dynamicK th = .ok out ∧
        out.chunks = [] ∧ out.num_results = 0) := by
  refine ⟨?_, ?_, ?_, ?_, ?_, ?_⟩
  · intro pr hpr
    rcases List.mem_append.mp hpr with h | h
    · have h2 : pr ∈ sortByDesc (fun pr => pr.2)
          (stored.enum.map fun p => ((p.1 : Int), innerProduct q p.2)) :=
        List.take_subset k _ h
      rw [mem_sortByDesc] at h2
      obtain ⟨⟨i, v⟩, hmem, heq⟩ := List.mem_map.mp h2
      have hi : i < stored.length := by
        have := List.mem_enum_iff_getElem?.mp hmem
        exact (List.getElem?_eq_some.mp this).1
      right
      rw [← heq]
      simpa using hi
    · left
      have := List.eq_of_mem_replicate h
      rw [this]
  · intro hk j hj
    refine ⟨innerProduct q (stored.get ⟨j, hj⟩), ?_⟩
    apply List.mem_append_left
    have hmem : ((j : Int), innerProduct q (stored.get ⟨j, hj⟩)) ∈
        (stored.enum.map fun p => ((p.1 : Int), innerProduct q p.2)) := by
      apply List.mem_map.mpr
      refine ⟨(j, stored.get ⟨j, hj⟩), ?_, rfl⟩
      exact List.mk_mem_enum_iff_getElem?.mpr (by simp [List.getElem?_eq_getElem hj])
    rw [← mem_sortByDesc (fun pr => pr.2)] at hmem
    have hlen : (sortByDesc (fun pr : Int × ℚ => pr.2)
        (stored.enum.map fun p => ((p.1 : Int), innerProduct q p.2))).length ≤ k := by
      rw [length_sortByDesc]
      simpa using hk
    rwa [List.take_of_length_le hlen]
  · intro dim
    simp [searchIndexModel]
  · intro dim hqne hdim
    rw [searchIndexModel, if_neg hqne, if_pos hdim]
  · intro dim hqne hdim
    refine ⟨((searchRanked [] q k pad).map Prod.fst,
      (searchRanked [] q k pad).map Prod.snd), ?_, ?_⟩
    · rw [searchIndexModel, if_neg hqne, if_neg (fun h => h hdim)]
    · have hrep : searchRanked [] q k pad = List.replicate k ((-1 : Int), pad) := by
        simp [searchRanked, sortByDesc]
      rw [hrep, List.map_replicate]
      induction k with
      | zero => rfl
      | succ n ih => simp [List.replicate_succ, ih]
  · intro rewriteF embed query topk dynamicK th qs dim hq hrw hqs hembed
    cases qs with
    | nil => exact absurd rfl hqs
    | cons q0 rest =>
      have hg : ∀ i,
          (sessionDeps rewriteF embed (emptySessionStores dim) pad).chunkGetter i = none :=
        fun i => sessionChunkGetter_nil i
      have hok : ∀ s, ∃ v sr,
          (sessionDeps rewriteF embed (emptySessionStores dim) pad).embed s = Except.ok v ∧
          (sessionDeps rewriteF embed (emptySessionStores dim) pad).search v
            (if dynamicK then max 20 (topk * 3) else topk) = Except.ok sr := by
        intro s
        obtain ⟨v, hv, hvne, hvdim⟩ := hembed s
        refine ⟨v, ((searchRanked [] v (if dynamicK then max 20 (topk * 3) else topk)
            pad).map Prod.fst,
          (searchRanked [] v (if dynamicK then max 20 (topk * 3) else topk)
            pad).map Prod.snd), hv, ?_⟩
        show searchIndexModel dim ([] : List (List ℚ)) v _ pad = _
        rw [searchIndexModel, if_neg hvne, if_neg (fun h => h hvdim)]
      obtain ⟨lastQ, hrun⟩ := runQueries_none_getter
        (sessionDeps rewriteF embed (emptySessionStores dim) pad) th query
        (if dynamicK then max 20 (topk * 3) else topk) hg hok (q0 :: rest) ([], query)
      refine ⟨{ query := lastQ, rewritten_queries := q0 :: rest, chunks := [],
                num_results := 0 }, ?_, rfl, rfl⟩
      rw [retrieveData]
      have hrw2 : (sessionDeps rewriteF embed (emptySessionStores dim) pad).rewrite query =
          .ok (q0 :: rest) := hrw
      simp only [hq, Bool.false_eq_true, if_false, hrw2]
      rw [hrun]
      simp [sortByDesc, applyTopK_nil]

/-- C7 (witness): the bounds theorem applied to a two-vector index with
`k = 5`, and the empty-session retrieval at a concrete rewriter and a
dimension-2 embedder. -/
theorem search_bounds_empty_session_witness :
    (∃ s, ((0 : Int), s) ∈ searchRanked [[1, 0], [0, 1]] [1, 0] 5 (-1)) ∧
    (∃ out, retrieveData (sessionDeps (fun _ => .ok ["alt"]) (fun _ => .ok [1, 0])
        (emptySessionStores 2) (-1)) "query text" 5 false (some 0) = .ok out ∧
      out.chunks = [] ∧ out.num_results = 0) :=
  ⟨(search_bounds_empty_session [[1, 0], [0, 1]] [1, 0] 5 (-1)).2.1 (by decide) 0 (by decide),
   (search_bounds_empty_session [] [] 5 (-1)).2.2.2.2.2 (fun _ => .ok ["alt"])
     (fun _ => .ok [1, 0]) "query text" 5 false (some 0) ["alt"] 2 (by decide) rfl
     (by decide) (fun _ => ⟨[1, 0], rfl, by decide, rfl⟩)⟩

/-- C3: the alignment invariant is broken by the session ingestion path —
`DocxParser.parse` with `session_data` adds one vector per kept chunk text
to the session's vector index and then raises `TypeError` at
`index_chunks_in_session(session_data, chunks, metadata)` (three arguments
against a two-parameter function) before storing any chunk, so whenever at
least one chunk text survives cleaning, the call returns
`success = False` and leaves the session's chunk store and vector index
with different sizes. -/
theorem parse_session_breaks_alignment (clean : String → String)
    (mkChunk : Nat → String → StoredChunk) (embed : String → List ℚ)
    (s : SessionStores) (texts : List String)
    (halign : s.chunks.length = s.vectors.length)
    (t : String) (ht : t ∈ texts) (htne : clean t ≠ "") :
    (parseSession clean mkChunk embed s texts).success = false ∧
    (parseSession clean mkChunk embed s texts).stores.chunks.length ≠
      (parseSession clean mkChunk embed s texts).stores.vectors.length := by
  refine ⟨rfl, ?_⟩
  have hmem : clean t ∈ (texts.map clean).filter (fun t1 => !(t1 == "")) :=
    List.mem_filter.mpr ⟨List.mem_map_of_mem clean ht, by simp [htne]⟩
  have hpos : 0 < ((texts.map clean).filter (fun t1 => !(t1 == ""))).length :=
    List.length_pos_of_mem hmem
  simp only [parseSession, List.length_append, List.length_map]
  omega

/-- C3 (witness): the broken alignment at a concrete fresh session and a
one-chunk document. -/
theorem parse_session_breaks_alignment_witness :
    (parseSession id
        (fun i t => { chunk_id := "c", document_id := "d", chunk_index := i, content := t,
                      metadata := "", created_at := "now" })
        (fun _ => [1, 0]) (emptySessionStores 2) ["Section one text"]).success = false ∧
    (parseSession id
        (fun i t => { chunk_id := "c", document_id := "d", chunk_index := i, content := t,
                      metadata := "", created_at := "now" })
        (fun _ => [1, 0]) (emptySessionStores 2) ["Section one text"]).stores.chunks.length ≠
      (parseSession id
        (fun i t => { chunk_id := "c", document_id := "d", chunk_index := i, content := t,
                      metadata := "", created_at := "now" })
        (fun _ => [1, 0]) (emptySessionStores 2) ["Section one text"]).stores.vectors.length :=
  parse_session_breaks_alignment id
    (fun i t => { chunk_id := "c", document_id := "d", chunk_index := i, content := t,
                  metadata := "", created_at := "now" })
    (fun _ => [1, 0]) (emptySessionStores 2) ["Section one text"] rfl "Section one text"
    (by simp) (by decide)
